import Mathlib

/-!
Verification of the MA-ISA core against its specification.

The development shallowly embeds the relevant Rust sources of the
`isa-project` repository:

* `isa-core/src/divergence.rs` — `CircularDistance::compute_scalar`,
  `compare_scalar`, `min_distance` (byte-level borrow-chain subtraction and
  most-significant-first comparison over 32-byte little-endian states);
* `isa-runtime/src/device.rs` — `modular_add` (carry-chain addition) and
  `DeviceRuntime::record_event`;
* `isa-core/src/axis.rs` — `AxisAccumulator` (state + wrapping counter,
  `accumulate`, `PartialEq`);
* `isa-core/src/integrity_state.rs` — `DimensionId`, KDF labels,
  `IntegrityState::from_master_seed`, `IntegrityState::<3>::from_bytes`
  (bincode fixed-size little-endian layout);
* `isa-merkle/src/lib.rs` — `MerkleTree::new/prove`, `MerkleProof::verify`.

Machine integers are modelled as `Nat` with explicit truncation (`% 256`
for `as u8`, `% 2 ^ 64` for `u64::wrapping_add`).  Byte arrays `[u8; 32]`
are `List Nat` whose elements are below 256 (predicate `State256`), stored
little-endian (index 0 is the least significant byte) exactly as in the
source.  The BLAKE3 hash underlying the KDF and the Merkle layer is an
external crate, so it enters the development as an uninterpreted function
parameter.
-/

namespace ISA

/-- Value of a byte list read little-endian, as the source does wherever it
performs 256-bit arithmetic on `[u8; 32]`. -/
def leVal : List Nat → Nat
  | [] => 0
  | b :: bs => b + 256 * leVal bs

/-- Little-endian byte representation of a value within a fixed width,
mirroring `u64::to_le_bytes` and the canonical byte form of a 256-bit
integer. -/
def natLE : Nat → Nat → List Nat
  | 0, _ => []
  | n + 1, v => v % 256 :: natLE n (v / 256)

/-- The list is a valid `[u8; 32]`: 32 bytes, each below 256. -/
def State256 (s : List Nat) : Prop := s.length = 32 ∧ ∀ x ∈ s, x < 256

instance : DecidablePred State256 := fun s => by
  unfold State256; infer_instance

/-- Borrow-propagating subtraction, the loop body of
`CircularDistance::compute_scalar` (divergence.rs lines 44-64): at each
index the code takes `ai - bi - borrowed` when `ai >= bi + borrowed` and
`256 + ai - bi - borrowed` (setting the borrow) otherwise, storing the
result `as u8`. -/
def subBorrow : List Nat → List Nat → Bool → List Nat
  | [], _, _ => []
  | _ :: _, [], _ => []
  | a :: as', b :: bs, borrow =>
    if b + (if borrow then 1 else 0) ≤ a then
      (a - b - (if borrow then 1 else 0)) % 256 :: subBorrow as' bs false
    else
      (256 + a - b - (if borrow then 1 else 0)) % 256 :: subBorrow as' bs true

/-- Final borrow flag of the same loop. -/
def subBorrowOut : List Nat → List Nat → Bool → Bool
  | [], _, borrow => borrow
  | _ :: _, [], borrow => borrow
  | a :: as', b :: bs, borrow =>
    if b + (if borrow then 1 else 0) ≤ a then subBorrowOut as' bs false
    else subBorrowOut as' bs true

namespace CircularDistance

/-- `CircularDistance::compute_scalar(a, b)`: `(a - b) mod 2^256` by borrow
propagation, starting with no borrow. -/
def compute_scalar (a b : List Nat) : List Nat := subBorrow a b false

/-- `CircularDistance::compute` delegates to the scalar path (the SIMD
feature is off by default, and the spec requires bit-identical output). -/
def compute (a b : List Nat) : List Nat := compute_scalar a b

end CircularDistance

/-- Carry-propagating addition, the loop body of `modular_add` in
device.rs lines 237-248: `sum = a[i] + b[i] + carry`, stores `sum as u8`,
carries `sum >> 8`. -/
def addCarry : List Nat → List Nat → Nat → List Nat
  | [], _, _ => []
  | _ :: _, [], _ => []
  | a :: as', b :: bs, carry =>
    (a + b + carry) % 256 :: addCarry as' bs ((a + b + carry) / 256)

/-- Final carry of the same loop (discarded by `modular_add`). -/
def addCarryOut : List Nat → List Nat → Nat → Nat
  | [], _, carry => carry
  | _ :: _, [], carry => carry
  | a :: as', b :: bs, carry => addCarryOut as' bs ((a + b + carry) / 256)

/-- `modular_add(a, b)`: `(a + b) mod 2^256` with carry propagation. -/
def modular_add (a b : List Nat) : List Nat := addCarry a b 0

/- ### Arithmetic lemmas about the byte-level loops -/

theorem leVal_lt_of_valid : ∀ s : List Nat, (∀ x ∈ s, x < 256) →
    leVal s < 256 ^ s.length := by
  intro s
  induction s with
  | nil => intro _; simp [leVal]
  | cons b bs ih =>
    intro h
    have hb : b < 256 := h b (List.mem_cons_self _ _)
    have hbs := ih (fun x hx => h x (List.mem_cons_of_mem _ hx))
    simp only [leVal, List.length_cons, pow_succ]
    calc b + 256 * leVal bs < 256 + 256 * leVal bs := by omega
    _ = 256 * (leVal bs + 1) := by ring
    _ ≤ 256 * 256 ^ bs.length := by
        have : leVal bs + 1 ≤ 256 ^ bs.length := hbs
        exact Nat.mul_le_mul_left _ this
    _ = 256 ^ bs.length * 256 := by ring

theorem natLE_leVal : ∀ s : List Nat, (∀ x ∈ s, x < 256) →
    natLE s.length (leVal s) = s := by
  intro s
  induction s with
  | nil => intro _; rfl
  | cons b bs ih =>
    intro h
    have hb : b < 256 := h b (List.mem_cons_self _ _)
    have hbs := ih (fun x hx => h x (List.mem_cons_of_mem _ hx))
    simp only [List.length_cons, natLE, leVal]
    have h1 : (b + 256 * leVal bs) % 256 = b := by omega
    have h2 : (b + 256 * leVal bs) / 256 = leVal bs := by omega
    rw [h1, h2, hbs]

theorem subBorrow_cons_false (x y : Nat) (xs ys : List Nat) :
    subBorrow (x :: xs) (y :: ys) false =
      if y ≤ x then (x - y) % 256 :: subBorrow xs ys false
      else (256 + x - y) % 256 :: subBorrow xs ys true := by
  simp [subBorrow]

theorem subBorrow_cons_true (x y : Nat) (xs ys : List Nat) :
    subBorrow (x :: xs) (y :: ys) true =
      if y + 1 ≤ x then (x - y - 1) % 256 :: subBorrow xs ys false
      else (256 + x - y - 1) % 256 :: subBorrow xs ys true := by
  simp [subBorrow]

theorem subBorrowOut_cons_false (x y : Nat) (xs ys : List Nat) :
    subBorrowOut (x :: xs) (y :: ys) false =
      if y ≤ x then subBorrowOut xs ys false else subBorrowOut xs ys true := by
  simp [subBorrowOut]

theorem subBorrowOut_cons_true (x y : Nat) (xs ys : List Nat) :
    subBorrowOut (x :: xs) (y :: ys) true =
      if y + 1 ≤ x then subBorrowOut xs ys false else subBorrowOut xs ys true := by
  simp [subBorrowOut]

theorem subBorrow_length : ∀ (a b : List Nat) (c : Bool),
    (subBorrow a b c).length = min a.length b.length := by
  intro a
  induction a with
  | nil => intro b c; simp [subBorrow]
  | cons x xs ih =>
    intro b c
    cases b with
    | nil => cases c <;> simp [subBorrow]
    | cons y ys =>
      cases c with
      | false =>
        rw [subBorrow_cons_false]
        split <;> simp only [List.length_cons, ih] <;> omega
      | true =>
        rw [subBorrow_cons_true]
        split <;> simp only [List.length_cons, ih] <;> omega

theorem subBorrow_valid : ∀ (a b : List Nat) (c : Bool),
    ∀ x ∈ subBorrow a b c, x < 256 := by
  intro a
  induction a with
  | nil => intro b c x hx; simp [subBorrow] at hx
  | cons v vs ih =>
    intro b c x hx
    cases b with
    | nil => cases c <;> simp [subBorrow] at hx
    | cons w ws =>
      cases c with
      | false =>
        rw [subBorrow_cons_false] at hx
        split at hx <;>
          rcases List.mem_cons.mp hx with h | h <;>
          first
            | (subst h; exact Nat.mod_lt _ (by norm_num))
            | exact ih ws _ x h
      | true =>
        rw [subBorrow_cons_true] at hx
        split at hx <;>
          rcases List.mem_cons.mp hx with h | h <;>
          first
            | (subst h; exact Nat.mod_lt _ (by norm_num))
            | exact ih ws _ x h

theorem subBorrow_spec : ∀ (a b : List Nat) (c : Bool),
    a.length = b.length → (∀ x ∈ a, x < 256) → (∀ x ∈ b, x < 256) →
    leVal (subBorrow a b c) + leVal b + (if c then 1 else 0) =
      leVal a + (if subBorrowOut a b c then 1 else 0) * 256 ^ a.length := by
  intro a
  induction a with
  | nil =>
    intro b c hlen _ _
    have : b = [] := List.eq_nil_of_length_eq_zero hlen.symm
    subst this
    cases c <;> simp [subBorrow, subBorrowOut, leVal]
  | cons x xs ih =>
    intro b c hlen ha hb
    cases b with
    | nil => simp at hlen
    | cons y ys =>
      have hx : x < 256 := ha x (List.mem_cons_self _ _)
      have hy : y < 256 := hb y (List.mem_cons_self _ _)
      have hxs : ∀ v ∈ xs, v < 256 := fun v hv => ha v (List.mem_cons_of_mem _ hv)
      have hys : ∀ v ∈ ys, v < 256 := fun v hv => hb v (List.mem_cons_of_mem _ hv)
      have hlen' : xs.length = ys.length := by simpa using hlen
      cases c with
      | false =>
        rw [subBorrow_cons_false, subBorrowOut_cons_false]
        by_cases hbr : y ≤ x
        · have ihe := ih ys false hlen' hxs hys
          rw [if_pos hbr, if_pos hbr]
          simp only [leVal, List.length_cons, pow_succ]
          norm_num
          have hmod : (x - y) % 256 = x - y := Nat.mod_eq_of_lt (by omega)
          rw [hmod]
          rcases hB : subBorrowOut xs ys false with _ | _ <;>
            rw [hB] at ihe <;> norm_num at ihe ⊢ <;>
            set P : Nat := 256 ^ xs.length with hP <;> omega
        · have ihe := ih ys true hlen' hxs hys
          rw [if_neg hbr, if_neg hbr]
          simp only [leVal, List.length_cons, pow_succ]
          norm_num
          have hmod : (256 + x - y) % 256 = 256 + x - y :=
            Nat.mod_eq_of_lt (by omega)
          rw [hmod]
          rcases hB : subBorrowOut xs ys true with _ | _ <;>
            rw [hB] at ihe <;> norm_num at ihe ⊢ <;>
            set P : Nat := 256 ^ xs.length with hP <;> omega
      | true =>
        rw [subBorrow_cons_true, subBorrowOut_cons_true]
        by_cases hbr : y + 1 ≤ x
        · have ihe := ih ys false hlen' hxs hys
          rw [if_pos hbr, if_pos hbr]
          simp only [leVal, List.length_cons, pow_succ]
          norm_num
          have hmod : (x - y - 1) % 256 = x - y - 1 := Nat.mod_eq_of_lt (by omega)
          rw [hmod]
          rcases hB : subBorrowOut xs ys false with _ | _ <;>
            rw [hB] at ihe <;> norm_num at ihe ⊢ <;>
            set P : Nat := 256 ^ xs.length with hP <;> omega
        · have ihe := ih ys true hlen' hxs hys
          rw [if_neg hbr, if_neg hbr]
          simp only [leVal, List.length_cons, pow_succ]
          norm_num
          have hmod : (256 + x - y - 1) % 256 = 256 + x - y - 1 :=
            Nat.mod_eq_of_lt (by omega)
          rw [hmod]
          rcases hB : subBorrowOut xs ys true with _ | _ <;>
            rw [hB] at ihe <;> norm_num at ihe ⊢ <;>
            set P : Nat := 256 ^ xs.length with hP <;> omega

theorem addCarry_length : ∀ (a b : List Nat) (c : Nat),
    (addCarry a b c).length = min a.length b.length := by
  intro a
  induction a with
  | nil => intro b c; simp [addCarry]
  | cons x xs ih =>
    intro b c
    cases b with
    | nil => simp [addCarry]
    | cons y ys =>
      simp only [addCarry, List.length_cons, ih]
      omega

theorem addCarry_valid : ∀ (a b : List Nat) (c : Nat),
    ∀ x ∈ addCarry a b c, x < 256 := by
  intro a
  induction a with
  | nil => intro b c x hx; simp [addCarry] at hx
  | cons v vs ih =>
    intro b c x hx
    cases b with
    | nil => simp [addCarry] at hx
    | cons w ws =>
      simp only [addCarry] at hx
      rcases List.mem_cons.mp hx with h | h
      · subst h; exact Nat.mod_lt _ (by norm_num)
      · exact ih ws _ x h

theorem addCarry_spec : ∀ (a b : List Nat) (c : Nat), a.length = b.length →
    leVal (addCarry a b c) + 256 ^ a.length * addCarryOut a b c =
      leVal a + leVal b + c := by
  intro a
  induction a with
  | nil =>
    intro b c hlen
    have : b = [] := List.eq_nil_of_length_eq_zero hlen.symm
    subst this
    simp [addCarry, addCarryOut, leVal]
  | cons x xs ih =>
    intro b c hlen
    cases b with
    | nil => simp at hlen
    | cons y ys =>
      have hlen' : xs.length = ys.length := by simpa using hlen
      have ihe := ih ys ((x + y + c) / 256) hlen'
      simp only [addCarry, addCarryOut, leVal, List.length_cons, pow_succ]
      have hq : 256 ^ xs.length * 256 * addCarryOut xs ys ((x + y + c) / 256) =
          256 * (256 ^ xs.length * addCarryOut xs ys ((x + y + c) / 256)) := by
        ring
      rw [hq]
      set Q := 256 ^ xs.length * addCarryOut xs ys ((x + y + c) / 256) with hQ
      have hsum : (x + y + c) % 256 + 256 * ((x + y + c) / 256) = x + y + c :=
        Nat.mod_add_div _ _
      omega

/- ### Characterizations of compute_scalar and modular_add -/

theorem state256_compute (a b : List Nat) (ha : State256 a) (hb : State256 b) :
    State256 (CircularDistance.compute a b) := by
  refine ⟨?_, subBorrow_valid a b false⟩
  rw [CircularDistance.compute, CircularDistance.compute_scalar, subBorrow_length,
    ha.1, hb.1]
  omega

theorem leVal_inj_of_state256 (a b : List Nat) (ha : State256 a) (hb : State256 b)
    (h : leVal a = leVal b) : a = b := by
  have h1 := natLE_leVal a ha.2
  have h2 := natLE_leVal b hb.2
  rw [ha.1] at h1
  rw [hb.1] at h2
  rw [← h1, ← h2, h]

theorem compute_scalar_leVal (a b : List Nat) (ha : State256 a) (hb : State256 b) :
    leVal (CircularDistance.compute_scalar a b) =
      (leVal a + 2 ^ 256 - leVal b) % 2 ^ 256 := by
  obtain ⟨hal, hav⟩ := ha
  obtain ⟨hbl, hbv⟩ := hb
  have hlen : a.length = b.length := by rw [hal, hbl]
  have hspec := subBorrow_spec a b false hlen hav hbv
  rw [hal] at hspec
  have hMe : (256 : Nat) ^ 32 = 2 ^ 256 := by norm_num
  set M : Nat := 2 ^ 256 with hM
  rw [hMe] at hspec
  have haM : leVal a < M := by
    have h := leVal_lt_of_valid a hav
    rw [hal, hMe] at h
    exact h
  have hbM : leVal b < M := by
    have h := leVal_lt_of_valid b hbv
    rw [hbl, hMe] at h
    exact h
  have hRM : leVal (subBorrow a b false) < M := by
    have h1 := leVal_lt_of_valid _ (subBorrow_valid a b false)
    rw [subBorrow_length, hal, hbl] at h1
    simpa [hMe] using h1
  rcases hB : subBorrowOut a b false with _ | _ <;> rw [hB] at hspec <;>
    norm_num at hspec
  · have he : leVal a + M - leVal b = M + leVal (subBorrow a b false) := by omega
    rw [CircularDistance.compute_scalar, he, Nat.add_mod_left,
      Nat.mod_eq_of_lt hRM]
  · have he : leVal a + M - leVal b = leVal (subBorrow a b false) := by omega
    rw [CircularDistance.compute_scalar, he, Nat.mod_eq_of_lt hRM]

theorem int_sub_emod_toNat (X Y M : Nat) (_hX : X < M) (hY : Y < M) :
    (((X : Int) - Y) % (M : Int)).toNat = (X + M - Y) % M := by
  have hle : Y ≤ X + M := by omega
  have h2 : (X : Int) - Y + M * 1 = ((X + M - Y : Nat) : Int) := by
    rw [Nat.cast_sub hle]
    push_cast
    ring
  calc (((X : Int) - Y) % (M : Int)).toNat
      = (((X : Int) - Y + (M : Int) * 1) % (M : Int)).toNat := by
        rw [Int.add_mul_emod_self_left]
    _ = ((((X + M - Y : Nat) : Int)) % (M : Int)).toNat := by rw [h2]
    _ = (((X + M - Y) % M : Nat) : Int).toNat := by rw [← Int.natCast_mod]
    _ = (X + M - Y) % M := Int.toNat_natCast _

/- ### Comparison and minimum-arc distance -/

/-- The comparison loop of `CircularDistance::compare_scalar` (divergence.rs
lines 84-93) walks indices 31 down to 0 and returns on the first unequal
byte; on the reversed (most-significant-first) lists this is lexicographic
comparison. -/
def cmpMSB : List Nat → List Nat → Ordering
  | x :: xs, y :: ys =>
    if x < y then .lt else if y < x then .gt else cmpMSB xs ys
  | _, _ => .eq

namespace CircularDistance

/-- `CircularDistance::compare_scalar(a, b)`: compare as 256-bit unsigned
integers, most significant byte (last index) first. -/
def compare_scalar (a b : List Nat) : Ordering := cmpMSB a.reverse b.reverse

/-- `CircularDistance::compare` delegates to the scalar path. -/
def compare (a b : List Nat) : Ordering := compare_scalar a b

/-- `CircularDistance::min_distance(a, b)` (divergence.rs lines 95-103):
`forward = compute(b, a)`, `backward = compute(a, b)`, return `forward`
on `Less | Equal`, `backward` on `Greater`. -/
def min_distance (a b : List Nat) : List Nat :=
  match compare (compute b a) (compute a b) with
  | .lt => compute b a
  | .eq => compute b a
  | .gt => compute a b

end CircularDistance

theorem cmpMSB_swap : ∀ a b : List Nat, cmpMSB b a = (cmpMSB a b).swap := by
  intro a
  induction a with
  | nil =>
    intro b
    cases b <;> simp [cmpMSB, Ordering.swap]
  | cons x xs ih =>
    intro b
    cases b with
    | nil => simp [cmpMSB, Ordering.swap]
    | cons y ys =>
      rcases lt_trichotomy x y with h | h | h
      · simp [cmpMSB, h, not_lt_of_gt h, Ordering.swap]
      · subst h
        simp [cmpMSB, lt_irrefl, ih]
      · simp [cmpMSB, h, not_lt_of_gt h, Ordering.swap]

theorem cmpMSB_eq_iff : ∀ a b : List Nat, a.length = b.length →
    (cmpMSB a b = .eq ↔ a = b) := by
  intro a
  induction a with
  | nil =>
    intro b hlen
    have : b = [] := List.eq_nil_of_length_eq_zero hlen.symm
    subst this
    simp [cmpMSB]
  | cons x xs ih =>
    intro b hlen
    cases b with
    | nil => simp at hlen
    | cons y ys =>
      have hlen' : xs.length = ys.length := by simpa using hlen
      rcases lt_trichotomy x y with h | h | h
      · simp only [cmpMSB, if_pos h]
        constructor
        · intro hc
          exact Ordering.noConfusion hc
        · intro hc
          injection hc with h1 h2
          omega
      · subst h
        simp only [cmpMSB, lt_self_iff_false, if_false]
        rw [ih ys hlen']
        simp
      · simp only [cmpMSB, if_neg (not_lt_of_gt h), if_pos h]
        constructor
        · intro hc
          exact Ordering.noConfusion hc
        · intro hc
          injection hc with h1 h2
          omega

theorem compare_swap (a b : List Nat) :
    CircularDistance.compare b a = (CircularDistance.compare a b).swap :=
  cmpMSB_swap a.reverse b.reverse

theorem compare_eq_iff (a b : List Nat) (hlen : a.length = b.length) :
    CircularDistance.compare a b = .eq ↔ a = b := by
  rw [CircularDistance.compare, CircularDistance.compare_scalar,
    cmpMSB_eq_iff _ _ (by simpa using hlen)]
  exact ⟨fun h => by simpa using congrArg List.reverse h,
    fun h => by rw [h]⟩

theorem min_distance_symm (a b : List Nat) :
    CircularDistance.min_distance a b = CircularDistance.min_distance b a := by
  have hlen : (CircularDistance.compute b a).length =
      (CircularDistance.compute a b).length := by
    simp only [CircularDistance.compute, CircularDistance.compute_scalar,
      subBorrow_length]
    omega
  rcases hc : CircularDistance.compare (CircularDistance.compute b a)
      (CircularDistance.compute a b) with _ | _ | _
  · have hc' : CircularDistance.compare (CircularDistance.compute a b)
        (CircularDistance.compute b a) = .gt := by
      simp [compare_swap _ (CircularDistance.compute a b), hc, Ordering.swap]
    simp [CircularDistance.min_distance, hc, hc']
  · have heq : CircularDistance.compute b a = CircularDistance.compute a b :=
      (compare_eq_iff _ _ hlen).mp hc
    have hc' : CircularDistance.compare (CircularDistance.compute a b)
        (CircularDistance.compute b a) = .eq := by
      simp [compare_swap _ (CircularDistance.compute a b), hc, Ordering.swap]
    simp [CircularDistance.min_distance, hc, hc', heq]
  · have hc' : CircularDistance.compare (CircularDistance.compute a b)
        (CircularDistance.compute b a) = .lt := by
      simp [compare_swap _ (CircularDistance.compute a b), hc, Ordering.swap]
    simp [CircularDistance.min_distance, hc, hc']

theorem subBorrow_self : ∀ x : List Nat, subBorrow x x false =
    List.replicate x.length 0 := by
  intro x
  induction x with
  | nil => rfl
  | cons v vs ih =>
    rw [subBorrow_cons_false, if_pos (le_refl v)]
    simp [ih, List.replicate_succ]

/- ### Claim theorems: C1, C3, C4 -/

/-- C1. Restoration law (Theorem 2): for 32-byte states, adding
`K = CircularDistance::compute(S_honest, S_drifted)` to the drifted state
with the runtime's carry-propagating `modular_add` restores the honest
state exactly: `modular_add(S_drifted, compute(S_honest, S_drifted)) =
S_honest`. -/
theorem restoration_law (sh sd : List Nat) (hh : State256 sh) (hd : State256 sd) :
    modular_add sd (CircularDistance.compute sh sd) = sh := by
  have hK : State256 (CircularDistance.compute sh sd) := state256_compute sh sd hh hd
  have hKval : leVal (CircularDistance.compute sh sd) =
      (leVal sh + 2 ^ 256 - leVal sd) % 2 ^ 256 := compute_scalar_leVal sh sd hh hd
  have hlen : sd.length = (CircularDistance.compute sh sd).length := by
    rw [hd.1, hK.1]
  have hadd := addCarry_spec sd (CircularDistance.compute sh sd) 0 hlen
  rw [hd.1] at hadd
  have hMe : (256 : Nat) ^ 32 = 2 ^ 256 := by norm_num
  set M : Nat := 2 ^ 256 with hM
  rw [hMe] at hadd
  set K := CircularDistance.compute sh sd with hKdef
  have hRstate : State256 (addCarry sd K 0) := by
    refine ⟨?_, addCarry_valid sd K 0⟩
    rw [addCarry_length, hd.1, hK.1]
    omega
  have hRM : leVal (addCarry sd K 0) < M := by
    have h := leVal_lt_of_valid _ hRstate.2
    rw [hRstate.1, hMe] at h
    exact h
  have hdM : leVal sd < M := by
    have h := leVal_lt_of_valid sd hd.2
    rw [hd.1, hMe] at h
    exact h
  have hhM : leVal sh < M := by
    have h := leVal_lt_of_valid sh hh.2
    rw [hh.1, hMe] at h
    exact h
  rw [Nat.add_zero] at hadd
  have e1 : (leVal sd + leVal K) % M = leVal (addCarry sd K 0) := by
    rw [← hadd, Nat.add_mul_mod_self_left, Nat.mod_eq_of_lt hRM]
  have e2 : (leVal sd + leVal K) % M = leVal sh := by
    have hmodeq : leVal sd + leVal K ≡
        leVal sd + (leVal sh + M - leVal sd) [MOD M] := by
      rw [hKval]
      exact Nat.ModEq.add_left _ (Nat.mod_modEq _ _)
    have h3 : leVal sd + (leVal sh + M - leVal sd) = M + leVal sh := by omega
    calc (leVal sd + leVal K) % M
        = (leVal sd + (leVal sh + M - leVal sd)) % M := hmodeq
      _ = (M + leVal sh) % M := by rw [h3]
      _ = leVal sh % M := Nat.add_mod_left _ _
      _ = leVal sh := Nat.mod_eq_of_lt hhM
  have hfin : leVal (addCarry sd K 0) = leVal sh := by rw [← e1, e2]
  have : addCarry sd K 0 = sh := leVal_inj_of_state256 _ _ hRstate hh hfin
  simpa [modular_add] using this

/-- Witness for C1 at a concrete pair of 32-byte states. -/
theorem restoration_law_witness :
    State256 (7 :: List.replicate 31 200) ∧
    State256 (250 :: List.replicate 31 3) ∧
    modular_add (250 :: List.replicate 31 3)
      (CircularDistance.compute (7 :: List.replicate 31 200)
        (250 :: List.replicate 31 3)) = 7 :: List.replicate 31 200 :=
  ⟨by decide, by decide,
    restoration_law (7 :: List.replicate 31 200) (250 :: List.replicate 31 3)
      (by decide) (by decide)⟩

/-- C3. `CircularDistance::compute(a, b)` is the little-endian byte
representation of `(int(a) - int(b)) mod 2^256` where `int` reads the 32
bytes as an unsigned little-endian integer. -/
theorem compute_is_modular_sub (a b : List Nat) (ha : State256 a)
    (hb : State256 b) :
    CircularDistance.compute a b =
      natLE 32 (((leVal a : Int) - (leVal b : Int)) % (2 : Int) ^ 256).toNat := by
  have haM : leVal a < 2 ^ 256 := by
    have h := leVal_lt_of_valid a ha.2
    rw [ha.1] at h
    calc leVal a < 256 ^ 32 := h
      _ = 2 ^ 256 := by norm_num
  have hbM : leVal b < 2 ^ 256 := by
    have h := leVal_lt_of_valid b hb.2
    rw [hb.1] at h
    calc leVal b < 256 ^ 32 := h
      _ = 2 ^ 256 := by norm_num
  have hcast : ((2 ^ 256 : Nat) : Int) = (2 : Int) ^ 256 := by norm_cast
  have key := int_sub_emod_toNat (leVal a) (leVal b) (2 ^ 256) haM hbM
  rw [hcast] at key
  rw [key, ← compute_scalar_leVal a b ha hb]
  have hK : State256 (CircularDistance.compute a b) := state256_compute a b ha hb
  have h1 := natLE_leVal _ hK.2
  rw [hK.1] at h1
  exact h1.symm

/-- Witness for C3 at a concrete pair of 32-byte states. -/
theorem compute_is_modular_sub_witness :
    State256 (5 :: List.replicate 31 0) ∧
    State256 (9 :: List.replicate 31 0) ∧
    CircularDistance.compute (5 :: List.replicate 31 0) (9 :: List.replicate 31 0) =
      natLE 32 (((leVal (5 :: List.replicate 31 0) : Int) -
        (leVal (9 :: List.replicate 31 0) : Int)) % (2 : Int) ^ 256).toNat :=
  ⟨by decide, by decide,
    compute_is_modular_sub (5 :: List.replicate 31 0) (9 :: List.replicate 31 0)
      (by decide) (by decide)⟩

/-- C4. Distance laws: `compute(x, x)` is the all-zero 32-byte array; the
two directional distances sum to 0 modulo 2^256; `min_distance` is
symmetric. -/
theorem distance_laws (a b x : List Nat) (ha : State256 a) (hb : State256 b)
    (hx : State256 x) :
    CircularDistance.compute x x = List.replicate 32 0 ∧
    (leVal (CircularDistance.compute a b) +
      leVal (CircularDistance.compute b a)) % 2 ^ 256 = 0 ∧
    CircularDistance.min_distance a b = CircularDistance.min_distance b a := by
  refine ⟨?_, ?_, min_distance_symm a b⟩
  · have h := subBorrow_self x
    rw [hx.1] at h
    exact h
  · have hA := compute_scalar_leVal a b ha hb
    have hB := compute_scalar_leVal b a hb ha
    have haM : leVal a < 2 ^ 256 := by
      have h := leVal_lt_of_valid a ha.2
      rw [ha.1] at h
      calc leVal a < 256 ^ 32 := h
        _ = 2 ^ 256 := by norm_num
    have hbM : leVal b < 2 ^ 256 := by
      have h := leVal_lt_of_valid b hb.2
      rw [hb.1] at h
      calc leVal b < 256 ^ 32 := h
        _ = 2 ^ 256 := by norm_num
    set M : Nat := 2 ^ 256 with hM
    simp only [CircularDistance.compute]
    rw [hA, hB, ← Nat.add_mod]
    have h2 : leVal a + M - leVal b + (leVal b + M - leVal a) = 2 * M := by omega
    rw [h2, Nat.mul_mod_left]

/-- Witness for C4 at concrete 32-byte states. -/
theorem distance_laws_witness :
    State256 (11 :: List.replicate 31 4) ∧
    State256 (17 :: List.replicate 31 9) ∧
    State256 (List.replicate 32 42) ∧
    (CircularDistance.compute (List.replicate 32 42) (List.replicate 32 42) =
      List.replicate 32 0 ∧
    (leVal (CircularDistance.compute (11 :: List.replicate 31 4)
        (17 :: List.replicate 31 9)) +
      leVal (CircularDistance.compute (17 :: List.replicate 31 9)
        (11 :: List.replicate 31 4))) % 2 ^ 256 = 0 ∧
    CircularDistance.min_distance (11 :: List.replicate 31 4)
        (17 :: List.replicate 31 9) =
      CircularDistance.min_distance (17 :: List.replicate 31 9)
        (11 :: List.replicate 31 4)) :=
  ⟨by decide, by decide, by decide,
    distance_laws (11 :: List.replicate 31 4) (17 :: List.replicate 31 9)
      (List.replicate 32 42) (by decide) (by decide) (by decide)⟩

/- ### AxisAccumulator (axis.rs) and DeviceRuntime (device.rs) -/

/-- Signature of `mix_state` (kdf.rs lines 50-53).  `mix_state` hashes
(state, event, entropy, delta_t) with BLAKE3, which lives in an external
crate; the mixing function is therefore kept uninterpreted and passed as a
parameter. -/
def MixFn : Type := List Nat → List Nat → List Nat → Nat → List Nat

/-- `AxisAccumulator` (axis.rs lines 24-30): a 32-byte state and a u64
event counter. -/
structure AxisAccumulator where
  state : List Nat
  counter : Nat
deriving DecidableEq

/-- `AxisAccumulator::new(seed)` (axis.rs lines 33-38). -/
def AxisAccumulator.new (seed : List Nat) : AxisAccumulator :=
  { state := seed, counter := 0 }

/-- `AxisAccumulator::accumulate` (axis.rs lines 40-43): replace the state
with `mix_state(state, event, entropy, delta_t)` and bump the counter with
`u64::wrapping_add(1)`. -/
def AxisAccumulator.accumulate (mix : MixFn) (acc : AxisAccumulator)
    (event entropy : List Nat) (delta_t : Nat) : AxisAccumulator :=
  { state := mix acc.state event entropy delta_t,
    counter := (acc.counter + 1) % 2 ^ 64 }

/-- `impl PartialEq for AxisAccumulator` (axis.rs lines 67-72): constant-time
equality of the state bytes AND equality of the counters. -/
def AxisAccumulator.eqb (a b : AxisAccumulator) : Bool :=
  (a.state == b.state) && (a.counter == b.counter)

/-- `Version` (version.rs lines 6-10), three u16 fields. -/
structure Version where
  major : Nat
  minor : Nat
  patch : Nat
deriving DecidableEq

/-- `Version::current()` with the crate constants `VERSION_MAJOR = 0`,
`VERSION_MINOR = 1`, `VERSION_PATCH = 0` (lib.rs lines 60-62). -/
def Version.current : Version := { major := 0, minor := 1, patch := 0 }

/-- `Version::is_compatible` (version.rs lines 29-31): majors equal. -/
def Version.is_compatible (v other : Version) : Bool := v.major == other.major

/-- `IntegrityState<3>` (integrity_state.rs lines 82-86): three dimension
accumulators (`DimensionAccumulator` is a transparent wrapper around
`AxisAccumulator`) plus a version. -/
structure IntegrityState3 where
  dim0 : AxisAccumulator
  dim1 : AxisAccumulator
  dim2 : AxisAccumulator
  version : Version
deriving DecidableEq

/-- `EventAxis` (device.rs lines 209-214). -/
inductive EventAxis where
  | Finance
  | Time
  | Hardware

/-- `DeviceRuntime` state visible to `record_event`: the
`MultiAxisState = IntegrityState<3>` and `last_timestamp` (device.rs lines
4-10).  The entropy source, clock and persistence handle are effectful
collaborators whose outputs enter `record_event` as explicit arguments. -/
structure DeviceRuntime where
  state : IntegrityState3
  last_timestamp : Nat

/-- `DeviceRuntime::record_event(axis, event_data)` (device.rs lines
56-77), success path: `now` is the value returned by `clock.now()`,
`entropy` the 32-byte draw from `entropy.gather(32)`;
`delta_t = now.saturating_sub(last_timestamp)` is `Nat` subtraction; the
nominated dimension accumulates (Finance = dimension 0, Time = 1,
Hardware = 2 via the `MultiAxisStateExt` accessors). -/
def DeviceRuntime.record_event (mix : MixFn) (rt : DeviceRuntime)
    (axis : EventAxis) (event_data : List Nat) (now : Nat)
    (entropy : List Nat) : DeviceRuntime :=
  match axis with
  | .Finance =>
    { state := { rt.state with
        dim0 := rt.state.dim0.accumulate mix event_data entropy
          (now - rt.last_timestamp) },
      last_timestamp := now }
  | .Time =>
    { state := { rt.state with
        dim1 := rt.state.dim1.accumulate mix event_data entropy
          (now - rt.last_timestamp) },
      last_timestamp := now }
  | .Hardware =>
    { state := { rt.state with
        dim2 := rt.state.dim2.accumulate mix event_data entropy
          (now - rt.last_timestamp) },
      last_timestamp := now }

/-- C6. Counter semantics: after any accumulate the counter is the old
counter plus one modulo 2^64; from `u64::MAX` one accumulate yields 0; and
the state is still replaced by the mixed state. -/
theorem counter_semantics (mix : MixFn) (acc : AxisAccumulator)
    (event entropy : List Nat) (delta_t : Nat) :
    (acc.accumulate mix event entropy delta_t).counter =
      (acc.counter + 1) % 2 ^ 64 ∧
    (AxisAccumulator.accumulate mix
        { state := acc.state, counter := 2 ^ 64 - 1 }
        event entropy delta_t).counter = 0 ∧
    (acc.accumulate mix event entropy delta_t).state =
      mix acc.state event entropy delta_t := by
  refine ⟨rfl, ?_, rfl⟩
  show (2 ^ 64 - 1 + 1) % 2 ^ 64 = 0
  omega

/-- C9. Frame property of `record_event`: the two dimensions that were not
nominated are untouched (state bytes and counters identical), for each of
the three axis choices. -/
theorem record_event_frame (mix : MixFn) (rt : DeviceRuntime)
    (event_data : List Nat) (now : Nat) (entropy : List Nat) :
    ((rt.record_event mix .Finance event_data now entropy).state.dim1 =
        rt.state.dim1 ∧
      (rt.record_event mix .Finance event_data now entropy).state.dim2 =
        rt.state.dim2) ∧
    ((rt.record_event mix .Time event_data now entropy).state.dim0 =
        rt.state.dim0 ∧
      (rt.record_event mix .Time event_data now entropy).state.dim2 =
        rt.state.dim2) ∧
    ((rt.record_event mix .Hardware event_data now entropy).state.dim0 =
        rt.state.dim0 ∧
      (rt.record_event mix .Hardware event_data now entropy).state.dim1 =
        rt.state.dim1) :=
  ⟨⟨rfl, rfl⟩, ⟨rfl, rfl⟩, ⟨rfl, rfl⟩⟩

/-- C10. `AxisAccumulator` equality holds exactly when both the state
bytes and the counter agree (so equal states with different counters
compare unequal). -/
theorem axis_eq_iff (a b : AxisAccumulator) :
    AxisAccumulator.eqb a b = true ↔
      a.state = b.state ∧ a.counter = b.counter := by
  simp [AxisAccumulator.eqb]

/- ### Seed derivation (integrity_state.rs from_master_seed) -/

/-- Signature of `Kdf::derive_key(context, inputs)` (kdf.rs lines 36-42):
BLAKE3 with the fixed framing string, uninterpreted here. -/
def DeriveFn : Type := List Nat → List (List Nat) → List Nat

/-- `DimensionId::from_index` (integrity_state.rs lines 48-52): the u64
little-endian index in the first 8 bytes, zeros in the remaining 8. -/
def DimensionId.from_index (i : Nat) : List Nat :=
  natLE 8 i ++ List.replicate 8 0

/-- `DimensionId::to_kdf_label` (integrity_state.rs lines 68-74): the
7 bytes of `b"isa.dim"` followed by the 16 id bytes. -/
def DimensionId.to_kdf_label (id : List Nat) : List Nat :=
  [105, 115, 97, 46, 100, 105, 109] ++ id

/-- `IntegrityState::<N>::from_master_seed` (integrity_state.rs lines
163-178): dimension i is a fresh accumulator seeded with
`Kdf::derive_key(DimensionId::from_index(i).to_kdf_label(), [master_seed])`.
The source's loop that overwrites a placeholder array element by element is
modelled as a map over `0..N`. -/
def IntegrityState.from_master_seed (derive_key : DeriveFn) (N : Nat)
    (master_seed : List Nat) : List AxisAccumulator :=
  (List.range N).map fun i =>
    AxisAccumulator.new
      (derive_key (DimensionId.to_kdf_label (DimensionId.from_index i))
        [master_seed])

theorem natLE_length : ∀ n v : Nat, (natLE n v).length = n := by
  intro n
  induction n with
  | zero => intro v; rfl
  | succ m ih => intro v; simp [natLE, ih]

theorem map_range_getD {β : Type} (f : Nat → β) (N i : Nat) (d : β)
    (h : i < N) : ((List.range N).map f).getD i d = f i := by
  have hlen : i < ((List.range N).map f).length := by simpa using h
  rw [List.getD_eq_getElem _ _ hlen]
  simp

/-- C5. Seed derivation: for every i < N, the i-th dimension of
`from_master_seed` carries the seed derived under the 23-byte label
`b"isa.dim" || u64_le(i) || 0^8`, starting with counter 0. -/
theorem from_master_seed_spec (derive_key : DeriveFn) (N : Nat)
    (master_seed : List Nat) (i : Nat) (hi : i < N) :
    ((IntegrityState.from_master_seed derive_key N master_seed).getD i
        (AxisAccumulator.new [])).state =
      derive_key ([105, 115, 97, 46, 100, 105, 109] ++
        (natLE 8 i ++ List.replicate 8 0)) [master_seed] ∧
    (DimensionId.to_kdf_label (DimensionId.from_index i)).length = 23 := by
  constructor
  · rw [IntegrityState.from_master_seed, map_range_getD _ N i _ hi]
    rfl
  · simp [DimensionId.to_kdf_label, DimensionId.from_index, natLE_length]

/-- Witness for C5 at a concrete derivation function, N = 3, i = 1. -/
theorem from_master_seed_spec_witness :
    1 < 3 ∧
    (((IntegrityState.from_master_seed (fun c _ => c) 3 [4]).getD 1
        (AxisAccumulator.new [])).state =
      (fun (c : List Nat) (_ : List (List Nat)) => c)
        ([105, 115, 97, 46, 100, 105, 109] ++
          (natLE 8 1 ++ List.replicate 8 0)) [[4]] ∧
    (DimensionId.to_kdf_label (DimensionId.from_index 1)).length = 23) :=
  ⟨by decide, from_master_seed_spec (fun c _ => c) 3 [4] 1 (by decide)⟩

/- ### Serialization (integrity_state.rs from_bytes over bincode's
fixed-width little-endian layout) -/

/-- Read `n` bytes from the stream or fail, as bincode's reader does. -/
def readBytes (n : Nat) (bs : List Nat) : Option (List Nat × List Nat) :=
  if n ≤ bs.length then some (bs.take n, bs.drop n) else none

/-- bincode deserialization of `Version`: three u16 little-endian. -/
def readVersion (bs : List Nat) : Option (Version × List Nat) := do
  let (mj, r1) ← readBytes 2 bs
  let (mi, r2) ← readBytes 2 r1
  let (pa, r3) ← readBytes 2 r2
  pure ({ major := leVal mj, minor := leVal mi, patch := leVal pa }, r3)

/-- bincode deserialization of one accumulator: 32 state bytes then a
little-endian u64 counter (serde derive on `AxisAccumulator`;
`DimensionAccumulator` wraps it transparently). -/
def readAxis (bs : List Nat) : Option (AxisAccumulator × List Nat) := do
  let (st, r1) ← readBytes 32 bs
  let (ct, r2) ← readBytes 8 r1
  pure ({ state := st, counter := leVal ct }, r2)

/-- bincode deserialization of `IntegrityState<3>`: the hand-written
`Deserialize` impl (integrity_state.rs lines 107-145) reads the 4-tuple
(dim0, dim1, dim2, version). -/
def readIntegrityState3 (bs : List Nat) :
    Option (IntegrityState3 × List Nat) := do
  let (d0, r1) ← readAxis bs
  let (d1, r2) ← readAxis r1
  let (d2, r3) ← readAxis r2
  let (v, r4) ← readVersion r3
  pure ({ dim0 := d0, dim1 := d1, dim2 := d2, version := v }, r4)

/-- `VersionedIntegrityState` envelope (integrity_state.rs lines 359-364). -/
structure VersionedIntegrityState where
  version : Version
  state : IntegrityState3
deriving DecidableEq

def readVersioned (bs : List Nat) :
    Option (VersionedIntegrityState × List Nat) := do
  let (v, r1) ← readVersion bs
  let (st, r2) ← readIntegrityState3 r1
  pure ({ version := v, state := st }, r2)

/-- `IntegrityStateError` (integrity_state.rs lines 366-370). -/
inductive IntegrityStateError where
  | DeserializationFailed
  | IncompatibleVersion (found expected : Version)
deriving DecidableEq

/-- `IntegrityState::<3>::from_bytes` (integrity_state.rs lines 249-262):
first bincode-deserialize the whole `VersionedIntegrityState`, mapping any
parse failure to `DeserializationFailed`, and only then check
`versioned.version.is_compatible(&Version::current())`. -/
def IntegrityState3.from_bytes (bs : List Nat) :
    Except IntegrityStateError IntegrityState3 :=
  match readVersioned bs with
  | none => .error .DeserializationFailed
  | some (v, _) =>
    if v.version.is_compatible Version.current then .ok v.state
    else .error (.IncompatibleVersion v.version Version.current)

/-- C2 counterexample: a blob whose version field encodes major 1 (the
current major is 0) but whose payload is truncated is rejected as
`DeserializationFailed`, not `IncompatibleVersion` — the version gate runs
only after the whole blob has deserialized. -/
theorem from_bytes_counterexample :
    leVal [1, 0] = 1 ∧ Version.current.major = 0 ∧
    IntegrityState3.from_bytes [1, 0, 0, 0, 0, 0] =
      .error .DeserializationFailed :=
  ⟨rfl, rfl, rfl⟩

/-- C2 (amended). Once the whole blob deserializes as a
`VersionedIntegrityState`, a major number differing from the library's
current major is rejected as `IncompatibleVersion`; malformed blobs fail
as `DeserializationFailed` even when their version field is already
incompatible. -/
theorem from_bytes_version_gate (bs : List Nat) (v : VersionedIntegrityState)
    (rest : List Nat) (hp : readVersioned bs = some (v, rest))
    (hmaj : v.version.major ≠ Version.current.major) :
    IntegrityState3.from_bytes bs =
      .error (.IncompatibleVersion v.version Version.current) := by
  simp [IntegrityState3.from_bytes, hp, Version.is_compatible, hmaj]

/-- The parse of the concrete 132-byte blob used in the C2 witness. -/
def versionedBlobOne : VersionedIntegrityState :=
  { version := { major := 1, minor := 0, patch := 0 },
    state :=
      { dim0 := { state := List.replicate 32 0, counter := 0 },
        dim1 := { state := List.replicate 32 0, counter := 0 },
        dim2 := { state := List.replicate 32 0, counter := 0 },
        version := { major := 0, minor := 0, patch := 0 } } }

set_option maxRecDepth 40000 in
/-- Witness for the amended C2 at a well-formed 132-byte blob with major 1. -/
theorem from_bytes_version_gate_witness :
    readVersioned ([1, 0, 0, 0, 0, 0] ++ List.replicate 126 0) =
      some (versionedBlobOne, []) ∧
    versionedBlobOne.version.major ≠ Version.current.major ∧
    IntegrityState3.from_bytes ([1, 0, 0, 0, 0, 0] ++ List.replicate 126 0) =
      .error (.IncompatibleVersion versionedBlobOne.version Version.current) :=
  ⟨by decide, by decide,
    from_bytes_version_gate _ versionedBlobOne [] (by decide) (by decide)⟩

/- ### Merkle batch-verification layer (isa-merkle/src/lib.rs)

The node array allocated by `MerkleTree::new` stores level `l` of the tree
at positions `(1 << l) - 1 .. (1 << (l+1)) - 1`; the bottom level holds the
padded leaf hashes and each upward pass computes
`nodes[level_start + i] = hash_pair(children)`.  The array contents are
reproduced here functionally: `bottomLevel` is the padded bottom row and
`combineLevel` is one upward pass, so level `height - k` of the array is
`upLevels hp k bottomLevel`.  The hash (BLAKE3) is uninterpreted. -/

/-- One upward pass of the construction loop (lib.rs lines 146-155):
adjacent pairs are combined with `hash_pair`. -/
def combineLevel (hp : List Nat → List Nat → List Nat) :
    List (List Nat) → List (List Nat)
  | a :: b :: rest => hp a b :: combineLevel hp rest
  | _ => []

/-- `k` upward passes from a level. -/
def upLevels (hp : List Nat → List Nat → List Nat) :
    Nat → List (List Nat) → List (List Nat)
  | 0, l => l
  | k + 1, l => upLevels hp k (combineLevel hp l)

/-- The sibling walk of `MerkleTree::prove` (lib.rs lines 193-209): at each
of the `height` levels from the bottom up, record the sibling
(`index + 1` when the index is even, `index - 1` otherwise) and halve the
index. -/
def proveSiblings (hp : List Nat → List Nat → List Nat) :
    Nat → List (List Nat) → Nat → List (List Nat)
  | 0, _, _ => []
  | k + 1, lvl, idx =>
    lvl.getD (if idx % 2 = 0 then idx + 1 else idx - 1) [] ::
      proveSiblings hp k (combineLevel hp lvl) (idx / 2)

/-- The folding loop of `MerkleProof::verify` (lib.rs lines 247-261):
hash `(current, sibling)` when the running index is even and
`(sibling, current)` otherwise, halving the index. -/
def verifyAux (hp : List Nat → List Nat → List Nat) :
    List Nat → Nat → List (List Nat) → List Nat
  | cur, _, [] => cur
  | cur, idx, s :: rest =>
    verifyAux hp (if idx % 2 = 0 then hp cur s else hp s cur) (idx / 2) rest

/-- `StateLeaf` (lib.rs lines 70-77): device id, state vector, cached hash. -/
structure StateLeaf where
  device_id : List Nat
  state : List (List Nat)
  hash : List Nat
deriving DecidableEq

/-- `StateLeaf::new` (lib.rs lines 79-99): the hash is computed once at
construction as H(device_id bytes || finance || time || hardware), with the
hash H uninterpreted. -/
def StateLeaf.new (hashFn : List Nat → List Nat) (device_id : List Nat)
    (state : List (List Nat)) : StateLeaf :=
  { device_id := device_id, state := state,
    hash := hashFn (device_id ++ state.flatten) }

/-- Default used to model the (guarded) indexing `self.leaves[index]`. -/
def dfltLeaf : StateLeaf := { device_id := [], state := [], hash := [] }

/-- `MerkleTree` (lib.rs lines 110-117); the node array is derived from
`leaves` and `height` by the functions above. -/
structure MerkleTree where
  leaves : List StateLeaf
  height : Nat
deriving DecidableEq

/-- The `assert!(!leaves.is_empty(), "Cannot create empty Merkle tree")`
guard at the top of `MerkleTree::new` (lib.rs line 126): construction
panics exactly when this is true. -/
def MerkleTree.new_assert_fails (leaves : List StateLeaf) : Bool :=
  leaves.isEmpty

/-- `MerkleTree::new(leaves)` (lib.rs lines 125-162).  `none` models the
assertion panic on an empty list; otherwise the height is
`(leaf_count as f64).log2().ceil()`, i.e. `Nat.clog 2 leaf_count` on the
exactly-representable range. -/
def MerkleTree.new? (leaves : List StateLeaf) : Option MerkleTree :=
  if leaves.isEmpty then none
  else some { leaves := leaves, height := Nat.clog 2 leaves.length }

/-- The bottom row of the node array (lib.rs lines 134-143): the leaf
hashes, padded up to `1 << height` entries with the last leaf's hash. -/
def MerkleTree.bottomLevel (t : MerkleTree) : List (List Nat) :=
  t.leaves.map StateLeaf.hash ++
    List.replicate (2 ^ t.height - t.leaves.length)
      ((t.leaves.map StateLeaf.hash).getLastD [])

/-- `MerkleTree::root` (lib.rs lines 173-175): node 0 of the array, i.e.
the single node left after `height` upward passes. -/
def MerkleTree.root (hp : List Nat → List Nat → List Nat)
    (t : MerkleTree) : List Nat :=
  (upLevels hp t.height t.bottomLevel).headD []

/-- `MerkleProof` (lib.rs lines 236-243). -/
structure MerkleProof where
  leaf : StateLeaf
  siblings : List (List Nat)
  index : Nat
deriving DecidableEq

/-- `MerkleTree::prove(index)` (lib.rs lines 188-216): `None` for an
out-of-range index, otherwise the leaf, its sibling path, and the index. -/
def MerkleTree.prove (hp : List Nat → List Nat → List Nat)
    (t : MerkleTree) (index : Nat) : Option MerkleProof :=
  if index < t.leaves.length then
    some { leaf := t.leaves.getD index dfltLeaf,
           siblings := proveSiblings hp t.height t.bottomLevel index,
           index := index }
  else none

/-- `MerkleProof::verify(root)` (lib.rs lines 247-261): fold the siblings
from the cached leaf hash and compare with the root. -/
def MerkleProof.verify (hp : List Nat → List Nat → List Nat)
    (p : MerkleProof) (root : List Nat) : Bool :=
  verifyAux hp p.leaf.hash p.index p.siblings == root

theorem combineLevel_length (hp : List Nat → List Nat → List Nat) :
    ∀ l : List (List Nat), (combineLevel hp l).length = l.length / 2
  | [] => by simp [combineLevel]
  | [_] => by simp [combineLevel]
  | _ :: _ :: rest => by
    simp only [combineLevel, List.length_cons]
    rw [combineLevel_length hp rest]
    omega

theorem combineLevel_getD (hp : List Nat → List Nat → List Nat) :
    ∀ (l : List (List Nat)) (j : Nat), 2 * j + 1 < l.length →
      (combineLevel hp l).getD j [] =
        hp (l.getD (2 * j) []) (l.getD (2 * j + 1) [])
  | [], j, h => by simp at h
  | [_], j, h => by
    simp only [List.length_singleton] at h
    omega
  | a :: b :: rest, 0, _ => by
    simp [combineLevel]
  | a :: b :: rest, j + 1, h => by
    have hh : 2 * j + 1 < rest.length := by
      simp only [List.length_cons] at h
      omega
    have e1 : 2 * (j + 1) = 2 * j + 1 + 1 := by ring
    have e2 : 2 * (j + 1) + 1 = 2 * j + 1 + 1 + 1 := by ring
    simp only [combineLevel, e1, e2, List.getD_cons_succ]
    exact combineLevel_getD hp rest j hh

theorem verifyAux_proveSiblings (hp : List Nat → List Nat → List Nat) :
    ∀ (k : Nat) (lvl : List (List Nat)) (idx : Nat),
      lvl.length = 2 ^ k → idx < 2 ^ k →
      verifyAux hp (lvl.getD idx []) idx (proveSiblings hp k lvl idx) =
        (upLevels hp k lvl).headD [] := by
  intro k
  induction k with
  | zero =>
    intro lvl idx hlen hidx
    have h1 : (2 : Nat) ^ 0 = 1 := pow_zero 2
    have hidx0 : idx = 0 := by omega
    subst hidx0
    simp only [proveSiblings, verifyAux, upLevels]
    cases lvl with
    | nil => rfl
    | cons a l => rfl
  | succ k ih =>
    intro lvl idx hlen hidx
    have hpow : (2 : Nat) ^ (k + 1) = 2 * 2 ^ k := by
      rw [pow_succ]
      ring
    have hclen : (combineLevel hp lvl).length = 2 ^ k := by
      rw [combineLevel_length hp lvl, hlen, hpow]
      omega
    simp only [proveSiblings, verifyAux, upLevels]
    by_cases hpar : idx % 2 = 0
    · rw [if_pos hpar, if_pos hpar]
      have hlt : 2 * (idx / 2) + 1 < lvl.length := by
        rw [hlen, hpow]
        omega
      have hcomb := combineLevel_getD hp lvl (idx / 2) hlt
      have hi1 : 2 * (idx / 2) = idx := by omega
      rw [hi1] at hcomb
      rw [← hcomb]
      exact ih (combineLevel hp lvl) (idx / 2) hclen (by omega)
    · rw [if_neg hpar, if_neg hpar]
      have hlt : 2 * (idx / 2) + 1 < lvl.length := by
        rw [hlen, hpow]
        omega
      have hcomb := combineLevel_getD hp lvl (idx / 2) hlt
      have hi1 : 2 * (idx / 2) = idx - 1 := by omega
      rw [hi1, show idx - 1 + 1 = idx from by omega] at hcomb
      rw [← hcomb]
      exact ih (combineLevel hp lvl) (idx / 2) hclen (by omega)

theorem map_hash_getD : ∀ (l : List StateLeaf) (i : Nat), i < l.length →
    (l.map StateLeaf.hash).getD i [] = (l.getD i dfltLeaf).hash := by
  intro l
  induction l with
  | nil => intro i hi; simp at hi
  | cons a l ih =>
    intro i hi
    cases i with
    | zero => rfl
    | succ j =>
      simp only [List.map_cons, List.getD_cons_succ]
      exact ih j (by simpa using hi)

/-- C7. Merkle proof completeness: for a tree built by `MerkleTree::new`
over a non-empty leaf list and any index below the leaf count, the proof
produced by `prove` verifies against the tree's root. -/
theorem merkle_proof_completeness (hp : List Nat → List Nat → List Nat)
    (leaves : List StateLeaf) (t : MerkleTree) (i : Nat)
    (hnew : MerkleTree.new? leaves = some t) (hi : i < leaves.length) :
    ∃ p, t.prove hp i = some p ∧ p.verify hp (t.root hp) = true := by
  rw [MerkleTree.new?] at hnew
  split at hnew
  · exact absurd hnew (by simp)
  · have ht := Option.some.inj hnew
    subst ht
    have hle : leaves.length ≤ 2 ^ Nat.clog 2 leaves.length :=
      Nat.le_pow_clog (by norm_num) _
    have hblen :
        (MerkleTree.bottomLevel
          { leaves := leaves, height := Nat.clog 2 leaves.length }).length =
          2 ^ Nat.clog 2 leaves.length := by
      simp only [MerkleTree.bottomLevel, List.length_append, List.length_map,
        List.length_replicate]
      omega
    have hbd :
        (MerkleTree.bottomLevel
          { leaves := leaves, height := Nat.clog 2 leaves.length }).getD i [] =
          (leaves.getD i dfltLeaf).hash := by
      simp only [MerkleTree.bottomLevel]
      rw [List.getD_append _ _ _ _ (by simpa using hi)]
      exact map_hash_getD leaves i hi
    refine ⟨{ leaf := leaves.getD i dfltLeaf,
              siblings := proveSiblings hp (Nat.clog 2 leaves.length)
                (MerkleTree.bottomLevel
                  { leaves := leaves, height := Nat.clog 2 leaves.length }) i,
              index := i }, ?_, ?_⟩
    · simp [MerkleTree.prove, hi]
    · rw [MerkleProof.verify]
      simp only []
      rw [← hbd, verifyAux_proveSiblings hp _ _ i hblen (lt_of_lt_of_le hi hle),
        MerkleTree.root]
      simp

/-- The two-leaf tree used in the C7 witness. -/
def leafA : StateLeaf := { device_id := [1], state := [[3]], hash := [10] }

/-- Second leaf of the C7 witness tree. -/
def leafB : StateLeaf := { device_id := [2], state := [[4]], hash := [20] }

/-- The C7 witness tree itself. -/
def pairTree : MerkleTree := { leaves := [leafA, leafB], height := 1 }

/-- Witness for C7: the proof for index 1 of the two-leaf tree verifies
against its root, with list concatenation standing in for the hash. -/
theorem merkle_proof_completeness_witness :
    MerkleTree.new? [leafA, leafB] = some pairTree ∧ 1 < 2 ∧
    ∃ p, pairTree.prove (fun a b => a ++ b) 1 = some p ∧
      p.verify (fun a b => a ++ b)
        (pairTree.root (fun a b => a ++ b)) = true := by
  have hclog : Nat.clog 2 2 = 1 := Nat.clog_eq_one (by norm_num) (by norm_num)
  have hnew : MerkleTree.new? [leafA, leafB] = some pairTree := by
    simp [MerkleTree.new?, pairTree, hclog]
  exact ⟨hnew, by norm_num,
    merkle_proof_completeness (fun a b => a ++ b) [leafA, leafB] pairTree 1
      hnew (by norm_num)⟩

/-- C8 counterexample: constructing a tree with zero leaves trips the
`assert!` (an abort) — the claimed typed failure does not exist. -/
theorem merkle_empty_counterexample :
    MerkleTree.new_assert_fails [] = true ∧ MerkleTree.new? [] = none :=
  ⟨rfl, rfl⟩

/-- C8 (amended): `MerkleTree::new` rejects exactly the empty leaf list,
but by the documented assertion panic, not by returning a typed failure;
every non-empty list constructs successfully. -/
theorem merkle_empty_rejection (leaves : List StateLeaf) :
    (MerkleTree.new_assert_fails leaves = true ↔ leaves = []) ∧
    ((MerkleTree.new? leaves).isNone = true ↔ leaves = []) := by
  constructor
  · simp [MerkleTree.new_assert_fails, List.isEmpty_iff]
  · rw [MerkleTree.new?]
    split <;> simp_all [List.isEmpty_iff]

end ISA
